import Mathlib

/-!
Verification of the Rust code emitter of the `typical` schema compiler.

The development shallowly embeds `src/generate_rust.rs` (the emitter) together
with the schema data model it consumes.  The emitter appends text to a caller
supplied buffer and only ever appends, so every `write_*` function is embedded
as a writer returning the text it appends; sequential writes become string
concatenation in the same order.  A Rust `BTreeMap` is embedded as an
association list whose entries are kept in ascending key order; its iteration
order is the list order.  Panics (`unwrap` on an unresolved namespace,
indexing a missing key) are embedded as `Option.none`.
-/

namespace Typical

/-- Modelled from the spec: the `Identifier` type lives in `identifier.rs`,
which is absent from `src/`.  Per §3/§4.1 of the spec an identifier is a
sequence of lowercase word segments; equality, ordering and hashing use the
segmented form. -/
abbrev Identifier := List String

/-- Modelled from the spec: Pascal rendering capitalizes each segment and
concatenates. -/
def pascal_case (identifier : Identifier) : String :=
  String.join (identifier.map String.capitalize)

/-- Modelled from the spec: snake rendering joins the segments with
underscores. -/
def snake_case (identifier : Identifier) : String :=
  String.intercalate ("_") identifier

/-- Byte-wise (character-wise) strict lexicographic order on strings, the
order `Ord` on Rust strings uses.  It is stated on the character list so that
it computes by the kernel. -/
def strLt (a b : String) : Prop :=
  List.Lex (· < ·) a.data b.data

instance : DecidableRel strLt :=
  fun a b => List.Lex.decidableRel _ a.data b.data

instance : IsStrictTotalOrder String strLt where
  trichotomous := by
    intro a b
    rcases trichotomous_of (List.Lex (· < · : Char → Char → Prop)) a.data b.data with h | h | h
    · exact Or.inl h
    · exact Or.inr (Or.inl (String.ext h))
    · exact Or.inr (Or.inr h)
  irrefl := fun a h => irrefl_of (List.Lex (· < · : Char → Char → Prop)) a.data h
  trans := fun _ _ _ h1 h2 => trans_of (List.Lex (· < · : Char → Char → Prop)) h1 h2

/-- The strict order on identifiers: lexicographic over the segment list,
exactly the derived `Ord` of the Rust `Identifier` (a vector of segments). -/
def idLt (a b : Identifier) : Prop :=
  List.Lex strLt a b

instance : DecidableRel idLt :=
  fun a b => List.Lex.decidableRel _ a b

/-- A `BTreeMap` key lookup on the association-list embedding. -/
def map_lookup {V : Type} (k : Identifier) : List (Identifier × V) → Option V
  | [] => none
  | (k', v') :: rest => if k = k' then some v' else map_lookup k rest

/-- A `BTreeMap` insertion on the association-list embedding: the new entry is
placed at its ordered position, and an existing entry with the same key is
replaced. -/
def map_insert {V : Type} (k : Identifier) (v : V) : List (Identifier × V) → List (Identifier × V)
  | [] => [(k, v)]
  | (k', v') :: rest =>
    if idLt k k' then (k, v) :: (k', v') :: rest
    else if k = k' then (k, v) :: rest
    else (k', v') :: map_insert k v rest

/-- Replacement of the value stored under an existing key, the embedding of
`get_mut` followed by an in-place update. -/
def map_set {V : Type} (k : Identifier) (v : V) : List (Identifier × V) → List (Identifier × V)
  | [] => []
  | (k', v') :: rest => if k = k' then (k, v) :: rest else (k', v') :: map_set k v rest

/-- Keys of the association list appear in strictly ascending `idLt` order,
the invariant every `BTreeMap` maintains and hence the order its iteration
(and the emitter's loops) follow. -/
def keys_sorted {V : Type} : List (Identifier × V) → Bool
  | [] => true
  | p :: rest => (rest.all fun q => decide (idLt p.1 q.1)) && keys_sorted rest

/-- The namespace of a schema: an ordered sequence of identifiers
(`schema::Namespace` in the source). -/
structure Namespace where
  components : List Identifier
deriving DecidableEq

/-- A type expression: the `bool` primitive or a custom reference carrying an
optional qualifier naming one of the schema's imported files
(`schema::TypeVariant` as consumed by `write_type`). -/
inductive TypeVariant where
  | bool : TypeVariant
  | custom (qualifier : Option Identifier) (name : Identifier) : TypeVariant
deriving DecidableEq

/-- A type reference (`schema::Type`); source ranges are irrelevant to
emission and omitted. -/
structure Type' where
  variant : TypeVariant
deriving DecidableEq

/-- A field (struct field or choice variant).  The flag the emitter reads is
called `unstable` in `generate_rust.rs`; it is the spec's "restricted"
marker. -/
structure Field where
  unstable : Bool
  type : Type'
deriving DecidableEq

/-- The two kinds of declaration, each carrying its fields as a `BTreeMap`
keyed by field identifier, exactly the shape `write_schema` consumes. -/
inductive DeclarationVariant where
  | struct (fields : List (Identifier × Field)) : DeclarationVariant
  | choice (fields : List (Identifier × Field)) : DeclarationVariant
deriving DecidableEq

/-- A declaration (`schema::Declaration`); only the variant matters to the
emitter. -/
structure Declaration where
  variant : DeclarationVariant
deriving DecidableEq

/-- An entry of a schema's `BTreeMap` of named imports.  The emitter reads a
single field, called `namespace` in the source: the target namespace the
loader fills in (`None` until resolution, unwrapped by `write_schema`). -/
structure Import where
  resolved_namespace : Option Namespace
deriving DecidableEq

/-- A schema as the emitter consumes it (`schema::Schema` in the version
`generate_rust.rs` is written against): both collections are `BTreeMap`s
keyed by identifier. -/
structure Schema where
  imports : List (Identifier × Import)
  declarations : List (Identifier × Declaration)
deriving DecidableEq

/-- The fields of a declaration, of either kind. -/
def Declaration.fields (d : Declaration) : List (Identifier × Field) :=
  match d.variant with
  | .struct fields => fields
  | .choice fields => fields

/-- A tree of schemas organized in a module hierarchy (`Module` in the
source). -/
inductive Module where
  | mk (children : List (Identifier × Module)) (schema : Schema) : Module

/-- The case convention argument of `write_identifier`. -/
inductive CaseConvention where
  | Pascal : CaseConvention
  | Snake : CaseConvention
deriving DecidableEq

/-- The flavor of a struct type. -/
inductive InOrOut where
  | In : InOrOut
  | Out : InOrOut
deriving DecidableEq

/-- The flavor of a choice type. -/
inductive InOrOutOrStable where
  | InOrOut (x : InOrOut) : InOrOutOrStable
  | Stable : InOrOutOrStable
deriving DecidableEq

/-- The string used for each indentation level (`INDENTATION`). -/
def INDENTATION : String := "    "

/-- The traits every generated type derives (`TRAITS_TO_DERIVE`). -/
def TRAITS_TO_DERIVE : List String := ["Clone", "Debug"]

/-- The full list of Rust 2018 keywords, in use and reserved
(`RUST_KEYWORDS`). -/
def RUST_KEYWORDS : List String :=
  ["Self", "abstract", "as", "async", "await", "become", "box", "break", "const", "continue",
   "crate", "do", "dyn", "else", "enum", "extern", "false", "final", "fn", "for", "if", "impl",
   "in", "let", "loop", "macro", "match", "mod", "move", "mut", "override", "priv", "pub", "ref",
   "return", "self", "static", "struct", "super", "trait", "true", "try", "type", "typeof",
   "unsafe", "unsized", "use", "virtual", "where", "while", "yield"]

/-- The test `converted_name.starts_with("r#")` from `write_identifier`,
computed on the character list so that the kernel can evaluate it. -/
def starts_with_rhash (s : String) : Bool :=
  match s.data with
  | 'r' :: '#' :: _ => true
  | _ => false

/-- Emit an identifier in the requested case convention, escaping Rust
keywords with the raw-identifier marker unless the rendering already starts
with it (`write_identifier`). -/
def write_identifier (identifier : Identifier) (case : CaseConvention) : String :=
  let converted_name :=
    match case with
    | CaseConvention.Pascal => pascal_case identifier
    | CaseConvention.Snake => snake_case identifier
  if starts_with_rhash converted_name = false ∧ RUST_KEYWORDS.contains converted_name = true then
    "r#" ++ converted_name
  else
    converted_name

/-- Emit the given level of indentation (`write_indentation`). -/
def write_indentation (indentation : Nat) : String :=
  String.join (List.replicate indentation INDENTATION)

/-- Length of the longest common prefix of two component lists. -/
def common_prefix_len : List Identifier → List Identifier → Nat
  | a :: rest1, b :: rest2 => if a = b then common_prefix_len rest1 rest2 + 1 else 0
  | _, _ => 0

/-- Modelled from the spec: `relativize_namespace` lives in the schema module
of the version `generate_rust.rs` is written against, which is absent from
`src/`.  Per §4.8 of the spec, the longest common prefix of the two
namespaces is computed; the result is the remainder of the first (target)
namespace together with the number of components of the second (current)
namespace past the prefix, rendered as ancestor markers. -/
def relativize_namespace (ns1 ns2 : Namespace) : Namespace × Nat :=
  let k := common_prefix_len ns1.components ns2.components
  (⟨ns1.components.drop k⟩, ns2.components.length - k)

/-- The flavor suffix appended to a type name, the `match` at the end of
`write_type` (and likewise in `write_struct` and `write_choice`). -/
def flavor_suffix : InOrOutOrStable → String
  | .InOrOut .In => "In"
  | .InOrOut .Out => "Out"
  | .Stable => "Stable"

/-- Emit a type (`write_type`).  A custom reference resolves its qualifier in
the schema's import map (the `BTreeMap` indexing panic is `none`), relativizes
the target namespace against the current one, and renders ancestor markers,
the remaining path components and the flavored type name. -/
def write_type (imports : List (Identifier × Namespace)) (ns : Namespace) (t : Type')
    (in_or_out_or_stable : InOrOutOrStable) : Option String :=
  match t.variant with
  | .bool => some ("bool")
  | .custom qualifier name => do
    let type_namespace : Namespace ←
      match qualifier with
      | none => some ns
      | some q => map_lookup q imports
    let p := relativize_namespace type_namespace ns
    some (String.join (List.replicate p.2 "super::")
      ++ String.join (p.1.components.map fun component =>
           write_identifier component CaseConvention.Snake ++ "::")
      ++ write_identifier name CaseConvention.Pascal
      ++ flavor_suffix in_or_out_or_stable)

/-- Emit a field of a struct, including the trailing line break
(`write_struct_field`).  A restricted (`unstable`) field of the `In` flavor is
wrapped in `Option<...>`. -/
def write_struct_field (indentation : Nat) (imports : List (Identifier × Namespace))
    (ns : Namespace) (name : Identifier) (field : Field) (in_or_out : InOrOut) :
    Option String := do
  let t ← write_type imports ns field.type (InOrOutOrStable.InOrOut in_or_out)
  some (write_indentation indentation
    ++ write_identifier name CaseConvention.Snake
    ++ ": "
    ++ (if field.unstable = true ∧ in_or_out = InOrOut.In then "Option<" else "")
    ++ t
    ++ (if field.unstable = true ∧ in_or_out = InOrOut.In then ">" else "")
    ++ ",\n")

/-- Emit a field (variant) of a choice, including the trailing line break
(`write_choice_field`).  In the `Out` flavor a restricted (`unstable`) variant
additionally carries a vector of the choice's own `Out` and one of its
`Stable`. -/
def write_choice_field (indentation : Nat) (imports : List (Identifier × Namespace))
    (ns : Namespace) (choice_name name : Identifier) (field : Field)
    (in_or_out_or_stable : InOrOutOrStable) : Option String := do
  let t ← write_type imports ns field.type in_or_out_or_stable
  some (write_indentation indentation
    ++ write_identifier name CaseConvention.Pascal
    ++ "("
    ++ t
    ++ (if in_or_out_or_stable = InOrOutOrStable.InOrOut InOrOut.Out ∧ field.unstable = true then
          ", Vec<" ++ write_identifier choice_name CaseConvention.Pascal ++ "Out>, "
            ++ write_identifier choice_name CaseConvention.Pascal ++ "Stable"
        else "")
    ++ "),\n")

/-- The field loop of `write_struct`: the fields are written in the iteration
order of their `BTreeMap`. -/
def write_struct_fields (indentation : Nat) (imports : List (Identifier × Namespace))
    (ns : Namespace) (fields : List (Identifier × Field)) (in_or_out : InOrOut) :
    Option String :=
  match fields with
  | [] => some ("")
  | (field_name, field) :: rest => do
    let s ← write_struct_field indentation imports ns field_name field in_or_out
    let srest ← write_struct_fields indentation imports ns rest in_or_out
    some (s ++ srest)

/-- Emit a struct of the given flavor, including the trailing line break
(`write_struct`). -/
def write_struct (indentation : Nat) (imports : List (Identifier × Namespace))
    (ns : Namespace) (name : Identifier) (fields : List (Identifier × Field))
    (in_or_out : InOrOut) : Option String := do
  let body ← write_struct_fields (indentation + 1) imports ns fields in_or_out
  some (write_indentation indentation
    ++ "#[derive(" ++ String.intercalate (", ") TRAITS_TO_DERIVE ++ ")]\n"
    ++ write_indentation indentation
    ++ "pub struct "
    ++ write_identifier name CaseConvention.Pascal
    ++ (match in_or_out with
        | InOrOut.In => "In"
        | InOrOut.Out => "Out")
    ++ " \x7b\n"
    ++ body
    ++ write_indentation indentation
    ++ "\x7d\n")

/-- The field loop of `write_choice`: every field is written except that the
`Stable` flavor skips restricted (`unstable`) fields, and the payload flavor
handed to `write_choice_field` replaces `Stable` by `Out`. -/
def write_choice_fields (indentation : Nat) (imports : List (Identifier × Namespace))
    (ns : Namespace) (choice_name : Identifier) (fields : List (Identifier × Field))
    (in_or_out_or_stable : InOrOutOrStable) : Option String :=
  match fields with
  | [] => some ("")
  | (field_name, field) :: rest => do
    let s ←
      if ¬ (in_or_out_or_stable = InOrOutOrStable.Stable ∧ field.unstable = true) then
        write_choice_field indentation imports ns choice_name field_name field
          (match in_or_out_or_stable with
           | InOrOutOrStable.InOrOut in_or_out => InOrOutOrStable.InOrOut in_or_out
           | InOrOutOrStable.Stable => InOrOutOrStable.InOrOut InOrOut.Out)
      else
        some ("")
    let srest ← write_choice_fields indentation imports ns choice_name rest in_or_out_or_stable
    some (s ++ srest)

/-- Emit a choice of the given flavor, including the trailing line break
(`write_choice`). -/
def write_choice (indentation : Nat) (imports : List (Identifier × Namespace))
    (ns : Namespace) (name : Identifier) (fields : List (Identifier × Field))
    (in_or_out_or_stable : InOrOutOrStable) : Option String := do
  let body ← write_choice_fields (indentation + 1) imports ns name fields in_or_out_or_stable
  some (write_indentation indentation
    ++ "#[derive(" ++ String.intercalate (", ") TRAITS_TO_DERIVE ++ ")]\n"
    ++ write_indentation indentation
    ++ "pub enum "
    ++ write_identifier name CaseConvention.Pascal
    ++ flavor_suffix in_or_out_or_stable
    ++ " \x7b\n"
    ++ body
    ++ write_indentation indentation
    ++ "\x7d\n")

/-- The import-map construction at the top of `write_schema`: each import's
resolved namespace is unwrapped (the panic on an unresolved one is `none`).
The source inserts into a fresh `BTreeMap` under the same keys in ascending
key order, which reproduces the entry list. -/
def resolve_imports : List (Identifier × Import) → Option (List (Identifier × Namespace))
  | [] => some []
  | (name, imp) :: rest => do
    let ns ← imp.resolved_namespace
    let rest' ← resolve_imports rest
    some ((name, ns) :: rest')

/-- The loop body of `write_schema` for a single declaration: a struct is
written in the flavors `In` then `Out`, a choice in the flavors `Stable`,
`In` then `Out`, with a blank line between consecutive flavors. -/
def write_declaration (indentation : Nat) (imports : List (Identifier × Namespace))
    (ns : Namespace) (name : Identifier) (declaration : Declaration) : Option String :=
  match declaration.variant with
  | .struct fields => do
    let a ← write_struct indentation imports ns name fields InOrOut.In
    let b ← write_struct indentation imports ns name fields InOrOut.Out
    some (a ++ "\n" ++ b)
  | .choice fields => do
    let a ← write_choice indentation imports ns name fields InOrOutOrStable.Stable
    let b ← write_choice indentation imports ns name fields (InOrOutOrStable.InOrOut InOrOut.In)
    let c ← write_choice indentation imports ns name fields (InOrOutOrStable.InOrOut InOrOut.Out)
    some (a ++ "\n" ++ b ++ "\n" ++ c)

/-- The declaration loop of `write_schema`: declarations are written in the
iteration order of their `BTreeMap`, with a blank line after each one that is
not the last. -/
def write_declarations (indentation : Nat) (imports : List (Identifier × Namespace))
    (ns : Namespace) : List (Identifier × Declaration) → Option String
  | [] => some ("")
  | (name, declaration) :: rest => do
    let s ← write_declaration indentation imports ns name declaration
    let srest ← write_declarations indentation imports ns rest
    some (s ++ (if rest = [] then "" else "\n") ++ srest)

/-- Emit a schema (`write_schema`): resolve the import map, then write the
declarations. -/
def write_schema (indentation : Nat) (ns : Namespace) (schema : Schema) : Option String := do
  let imports ← resolve_imports schema.imports
  write_declarations indentation imports ns schema.declarations

mutual

/-- Emit a module, including the trailing line break (`write_module`). -/
def write_module (indentation : Nat) (ns : Namespace) (name : Identifier) :
    Module → Option String
  | .mk children schema => do
    let contents ← write_module_contents (indentation + 1)
      ⟨ns.components ++ [name]⟩ children schema
    some (write_indentation indentation
      ++ "#[rustfmt::skip]\n"
      ++ write_indentation indentation
      ++ "pub mod "
      ++ write_identifier name CaseConvention.Snake
      ++ " \x7b\n"
      ++ contents
      ++ write_indentation indentation
      ++ "\x7d\n")
termination_by m => sizeOf m
decreasing_by
  simp_wf
  cases schema
  simp
  omega

/-- The child loop of `write_module_contents`: child modules are written in
the iteration order of the children `BTreeMap`, with a blank line after each
child that is not the last or that is followed by a non-empty schema. -/
def write_module_children (indentation : Nat) (ns : Namespace)
    (children : List (Identifier × Module)) (schema_empty : Bool) : Option String :=
  match children with
  | [] => some ("")
  | (child_name, child) :: rest => do
    let s ← write_module indentation ns child_name child
    let srest ← write_module_children indentation ns rest schema_empty
    some (s ++ (if rest.isEmpty = false ∨ schema_empty = false then "\n" else "") ++ srest)
termination_by sizeOf children

/-- Emit the contents of a module: the children, then the schema
(`write_module_contents`). -/
def write_module_contents (indentation : Nat) (ns : Namespace)
    (children : List (Identifier × Module)) (schema : Schema) : Option String := do
  let cs ← write_module_children indentation ns children schema.declarations.isEmpty
  let ss ← write_schema indentation ns schema
  some (cs ++ ss)
termination_by sizeOf children + 1

end

/-- Insert a schema into the module tree under the given namespace
components (`insert_schema`): walk the path, updating the existing child in
place or creating and inserting a fresh one, and store the schema at the
final node. -/
def insert_schema (m : Module) (components : List Identifier) (schema : Schema) : Module :=
  match components, m with
  | [], .mk children _ => .mk children schema
  | head :: rest, .mk children s =>
    match map_lookup head children with
    | some child => .mk (map_set head (insert_schema child rest schema) children) s
    | none => .mk (map_insert head (insert_schema (.mk [] ⟨[], []⟩) rest schema) children) s

/-- The tree-building loop at the top of `generate`: every schema of the set
is inserted into an initially empty tree. -/
def build_tree (schemas : List (Namespace × Schema)) : Module :=
  schemas.foldl (fun t p => insert_schema t p.1.components p.2) (.mk [] ⟨[], []⟩)

/-- Generate Rust code from a schema set (`generate`): unless the module tree
is completely empty, a lint-silencing header is written, followed by a blank
line and the contents of the root module. -/
def generate (schemas : List (Namespace × Schema)) : Option String :=
  match build_tree schemas with
  | .mk children schema =>
    if children.isEmpty = false ∨ schema.declarations.isEmpty = false then do
      let contents ← write_module_contents 0 ⟨[]⟩ children schema
      some ("#![allow(clippy::all, clippy::pedantic, clippy::nursery, warnings)]\n"
        ++ "\n" ++ contents)
    else
      some ("")

/-- The sequence of declaration names in the order the declaration loop of
`write_schema` (`write_declarations`, which folds over exactly this list)
writes them. -/
def emitted_decl_order (schema : Schema) : List Identifier :=
  schema.declarations.map Prod.fst

/-- Modelled from the spec: the parser (absent from `src/`) produces the
declarations of a file in source order (§4.3; the `Vec`-based `schema.rs`
under `src/` stores them so), while the emitter consumes them keyed by name
in a `BTreeMap`; keying a source-ordered declaration list is this fold of
`BTreeMap` insertions. -/
def declarations_to_map (declarations : List (Identifier × Declaration)) :
    List (Identifier × Declaration) :=
  declarations.foldl (fun m p => map_insert p.1 p.2 m) []

/-- Fields of a declaration are keyed in ascending order, the `BTreeMap`
invariant. -/
def fields_sorted (d : Declaration) : Bool :=
  keys_sorted d.fields

/-- Both `BTreeMap`s of a schema hold their entries in ascending key order,
and so do the field maps of all its declarations. -/
def schema_sorted (s : Schema) : Bool :=
  keys_sorted s.declarations && s.declarations.all fun p => fields_sorted p.2

/-- Every map of the module tree holds its entries in ascending key order:
since the emitter's loops follow the entry lists, this is precisely the
statement that child modules, declarations and fields are emitted in
ascending (lexicographic) identifier order. -/
inductive ModuleOrdered : Module → Prop where
  | mk {children : List (Identifier × Module)} {schema : Schema} :
      keys_sorted children = true →
      schema_sorted schema = true →
      (∀ p ∈ children, ModuleOrdered p.2) →
      ModuleOrdered (.mk children schema)

/-- A field's type reference either is the primitive, is unqualified, or
names a qualifier bound in the given import map. -/
def field_bound (imports : List (Identifier × Import)) (f : Field) : Bool :=
  match f.type.variant with
  | .custom (some q) _ => (map_lookup q imports).isSome
  | _ => true

/-- The validation facts about a schema that `write_schema` relies on: every
entry of the import map carries a resolved namespace, and every qualifier
used by a field's type reference is a key of the import map. -/
def schema_closed (s : Schema) : Bool :=
  (s.imports.all fun p => p.2.resolved_namespace.isSome) &&
    (s.declarations.all fun d => d.2.fields.all fun f => field_bound s.imports f.2)

/-- Every schema of the module tree is closed in the sense of
`schema_closed`. -/
inductive ModuleClosed : Module → Prop where
  | mk {children : List (Identifier × Module)} {schema : Schema} :
      schema_closed schema = true →
      (∀ p ∈ children, ModuleClosed p.2) →
      ModuleClosed (.mk children schema)

/-- The text of one variant of a `Stable` choice as the spec words it: the
Pascal-cased variant name with a single payload at the payload type's `Out`
flavor. -/
def stable_variant_text (indentation : Nat) (imports : List (Identifier × Namespace))
    (ns : Namespace) (p : Identifier × Field) : Option String := do
  let t ← write_type imports ns p.2.type (InOrOutOrStable.InOrOut InOrOut.Out)
  some (write_indentation indentation
    ++ write_identifier p.1 CaseConvention.Pascal
    ++ "(" ++ t ++ "),\n")

/-- Concatenation of the texts of a list of `Stable` variants. -/
def stable_variant_texts (indentation : Nat) (imports : List (Identifier × Namespace))
    (ns : Namespace) : List (Identifier × Field) → Option String
  | [] => some ("")
  | p :: rest => do
    let s ← stable_variant_text indentation imports ns p
    let srest ← stable_variant_texts indentation imports ns rest
    some (s ++ srest)

/-- The list of flavored type definitions one declaration emits, as the spec
words it: a struct contributes its `In` and `Out` renderings in that order, a
choice its `Stable`, `In` and `Out` renderings in that order. -/
def declaration_flavor_parts (indentation : Nat) (imports : List (Identifier × Namespace))
    (ns : Namespace) (name : Identifier) (declaration : Declaration) :
    Option (List String) :=
  match declaration.variant with
  | .struct fields => do
    let a ← write_struct indentation imports ns name fields InOrOut.In
    let b ← write_struct indentation imports ns name fields InOrOut.Out
    some [a, b]
  | .choice fields => do
    let a ← write_choice indentation imports ns name fields InOrOutOrStable.Stable
    let b ← write_choice indentation imports ns name fields (InOrOutOrStable.InOrOut InOrOut.In)
    let c ← write_choice indentation imports ns name fields (InOrOutOrStable.InOrOut InOrOut.Out)
    some [a, b, c]

/-- Modelled from the spec: the wire-codec collaborator contract of §6 as
`check_match` in `integration_tests/rust/src/round_trip.rs` consumes it.
`serialize` yields the bytes a value appends to the caller's buffer (or an
I/O error), `size` its predicted byte length, `deserialize` reads a value of
the target type back from a byte slice, `debug` is the target type's debug
rendering, and `conv` is the `From` conversion between the two generated
types. -/
structure RoundTripEnv (T U : Type) where
  size : T → Nat
  serialize : T → Except String (List UInt8)
  deserialize : List UInt8 → Except String U
  debug : U → String
  conv : T → U

/-- The round-trip checker (`check_match`): serialize into a fresh buffer,
compare the buffer length against `size`, deserialize the buffer, and compare
debug renderings of the result and the converted input; every mismatch is the
error `"Mismatch!"`, and serializer or deserializer errors propagate. -/
def check_match {T U : Type} (env : RoundTripEnv T U) (x : T) : Except String Unit :=
  let size := env.size x
  let buffer : List UInt8 := []
  match env.serialize x with
  | .error e => .error e
  | .ok bytes =>
    let buffer := buffer ++ bytes
    if ¬ (buffer.length = size) then
      .error ("Mismatch!")
    else
      match env.deserialize buffer with
      | .error e => .error e
      | .ok y =>
        if env.debug y = env.debug (env.conv x) then .ok () else .error ("Mismatch!")

/-- A concrete instantiation of the wire-codec contract on booleans: one byte
per value. -/
def bool_round_trip_env : RoundTripEnv Bool Bool where
  size := fun _ => 1
  serialize := fun x => Except.ok [if x then 1 else 0]
  deserialize := fun l =>
    match l with
    | [b] => Except.ok (b == 1)
    | _ => Except.error ("eof")
  debug := fun b => toString b
  conv := fun b => b

theorem rust_keywords_no_rhash : ∀ k ∈ RUST_KEYWORDS, starts_with_rhash k = false := by
  decide

theorem starts_with_rhash_append (s : String) : starts_with_rhash ("r#" ++ s) = true := rfl

theorem rhash_append_not_keyword (s : String) :
    RUST_KEYWORDS.contains ("r#" ++ s) = false := by
  by_contra h
  rw [Bool.not_eq_false, List.contains_eq_any_beq, List.any_eq_true] at h
  obtain ⟨k, hk, heq⟩ := h
  rw [beq_iff_eq] at heq
  have hfalse := rust_keywords_no_rhash k hk
  rw [← heq, starts_with_rhash_append] at hfalse
  exact Bool.true_eq_false.mp hfalse

/-- C9: for the empty schema set, `generate` returns the empty output string,
emitting neither the file header nor any module. -/
theorem c9_generate_empty : generate [] = some ("") := rfl

/-- C6: for every identifier and case convention, the string produced by
`write_identifier` is never a Rust keyword: a rendering that already begins
with the escape marker `r#` is left unescaped, and otherwise a rendering that
equals a keyword is prefixed with `r#`. -/
theorem c6_write_identifier_never_keyword (identifier : Identifier) (case : CaseConvention) :
    RUST_KEYWORDS.contains (write_identifier identifier case) = false
    ∧ (starts_with_rhash (pascal_case identifier) = true →
        write_identifier identifier CaseConvention.Pascal = pascal_case identifier)
    ∧ (starts_with_rhash (snake_case identifier) = true →
        write_identifier identifier CaseConvention.Snake = snake_case identifier)
    ∧ (starts_with_rhash (pascal_case identifier) = false →
        RUST_KEYWORDS.contains (pascal_case identifier) = true →
        write_identifier identifier CaseConvention.Pascal = "r#" ++ pascal_case identifier)
    ∧ (starts_with_rhash (snake_case identifier) = false →
        RUST_KEYWORDS.contains (snake_case identifier) = true →
        write_identifier identifier CaseConvention.Snake = "r#" ++ snake_case identifier) := by
  refine ⟨?_, ?_, ?_, ?_, ?_⟩
  · unfold write_identifier
    rcases case with _ | _ <;> simp only []
    · by_cases h : starts_with_rhash (pascal_case identifier) = false
        ∧ RUST_KEYWORDS.contains (pascal_case identifier) = true
      · rw [if_pos h]
        exact rhash_append_not_keyword _
      · rw [if_neg h]
        push_neg at h
        by_cases hc : RUST_KEYWORDS.contains (pascal_case identifier) = true
        · exfalso
          have hr := h
          by_cases hs : starts_with_rhash (pascal_case identifier) = false
          · exact h hs hc
          · rw [Bool.not_eq_false] at hs
            have := rust_keywords_no_rhash (pascal_case identifier)
              (by rw [← List.elem_iff]; exact hc)
            rw [hs] at this
            exact Bool.true_eq_false.mp this
        · exact Bool.not_eq_true _ |>.mp hc
    · by_cases h : starts_with_rhash (snake_case identifier) = false
        ∧ RUST_KEYWORDS.contains (snake_case identifier) = true
      · rw [if_pos h]
        exact rhash_append_not_keyword _
      · rw [if_neg h]
        push_neg at h
        by_cases hc : RUST_KEYWORDS.contains (snake_case identifier) = true
        · exfalso
          by_cases hs : starts_with_rhash (snake_case identifier) = false
          · exact h hs hc
          · rw [Bool.not_eq_false] at hs
            have := rust_keywords_no_rhash (snake_case identifier)
              (by rw [← List.elem_iff]; exact hc)
            rw [hs] at this
            exact Bool.true_eq_false.mp this
        · exact Bool.not_eq_true _ |>.mp hc
  · intro hs
    unfold write_identifier
    simp only []
    rw [if_neg]
    intro hcontra
    rw [hs] at hcontra
    exact Bool.true_eq_false.mp hcontra.1
  · intro hs
    unfold write_identifier
    simp only []
    rw [if_neg]
    intro hcontra
    rw [hs] at hcontra
    exact Bool.true_eq_false.mp hcontra.1
  · intro hs hc
    unfold write_identifier
    simp only []
    rw [if_pos ⟨hs, hc⟩]
  · intro hs hc
    unfold write_identifier
    simp only []
    rw [if_pos ⟨hs, hc⟩]

theorem c6_witness :
    RUST_KEYWORDS.contains (write_identifier ["fn"] CaseConvention.Snake) = false
    ∧ write_identifier ["fn"] CaseConvention.Snake = "r#" ++ snake_case ["fn"] :=
  ⟨(c6_write_identifier_never_keyword ["fn"] CaseConvention.Snake).1,
   (c6_write_identifier_never_keyword ["fn"] CaseConvention.Snake).2.2.2.2
     (by decide) (by decide)⟩

/-- C3: for every struct field of type `T`, the emitted `In` struct types a
restricted field as `Option` around `T`'s `In` flavor and a non-restricted
field bare at `T`'s `In` flavor, while the emitted `Out` struct types every
field, restricted or not, bare at `T`'s `Out` flavor. -/
theorem c3_struct_field_flavors (indentation : Nat) (imports : List (Identifier × Namespace))
    (ns : Namespace) (name : Identifier) (field : Field) :
    (write_struct_field indentation imports ns name field InOrOut.In =
      (write_type imports ns field.type (InOrOutOrStable.InOrOut InOrOut.In)).map fun t =>
        write_indentation indentation ++ write_identifier name CaseConvention.Snake ++ ": " ++
          (if field.unstable = true then "Option<" ++ t ++ ">" else t) ++ ",\n")
    ∧ (write_struct_field indentation imports ns name field InOrOut.Out =
      (write_type imports ns field.type (InOrOutOrStable.InOrOut InOrOut.Out)).map fun t =>
        write_indentation indentation ++ write_identifier name CaseConvention.Snake ++ ": " ++
          t ++ ",\n") := by
  constructor
  · cases h : write_type imports ns field.type (InOrOutOrStable.InOrOut InOrOut.In) with
    | none => simp [write_struct_field, h]
    | some t =>
      by_cases hu : field.unstable = true
      · simp [write_struct_field, h, hu, String.append_assoc]
        apply String.ext
        simp only [String.data_append, List.append_assoc]
        rfl
      · simp [write_struct_field, h, hu, String.append_assoc]
  · cases h : write_type imports ns field.type (InOrOutOrStable.InOrOut InOrOut.Out) with
    | none => simp [write_struct_field, h]
    | some t => simp [write_struct_field, h, String.append_assoc]

/-- C4: for every choice `C` and variant of payload type `T`, the emitted
`In` choice gives every variant, restricted or not, the single payload `T
In`; the emitted `Out` choice gives a restricted variant the tuple
`(T Out, Vec<C Out>, C Stable)` and a non-restricted variant the single
payload `T Out`. -/
theorem c4_choice_field_flavors (indentation : Nat) (imports : List (Identifier × Namespace))
    (ns : Namespace) (choice_name name : Identifier) (field : Field) :
    (write_choice_field indentation imports ns choice_name name field
        (InOrOutOrStable.InOrOut InOrOut.In) =
      (write_type imports ns field.type (InOrOutOrStable.InOrOut InOrOut.In)).map fun t =>
        write_indentation indentation ++ write_identifier name CaseConvention.Pascal ++
          "(" ++ t ++ "),\n")
    ∧ (field.unstable = true →
      write_choice_field indentation imports ns choice_name name field
          (InOrOutOrStable.InOrOut InOrOut.Out) =
        (write_type imports ns field.type (InOrOutOrStable.InOrOut InOrOut.Out)).map fun t =>
          write_indentation indentation ++ write_identifier name CaseConvention.Pascal ++
            "(" ++ t ++ ", Vec<" ++ write_identifier choice_name CaseConvention.Pascal ++
            "Out>, " ++ write_identifier choice_name CaseConvention.Pascal ++ "Stable),\n")
    ∧ (field.unstable = false →
      write_choice_field indentation imports ns choice_name name field
          (InOrOutOrStable.InOrOut InOrOut.Out) =
        (write_type imports ns field.type (InOrOutOrStable.InOrOut InOrOut.Out)).map fun t =>
          write_indentation indentation ++ write_identifier name CaseConvention.Pascal ++
            "(" ++ t ++ "),\n") := by
  refine ⟨?_, ?_, ?_⟩
  · cases h : write_type imports ns field.type (InOrOutOrStable.InOrOut InOrOut.In) with
    | none => simp [write_choice_field, h]
    | some t => simp [write_choice_field, h, String.append_assoc]
  · intro hu
    cases h : write_type imports ns field.type (InOrOutOrStable.InOrOut InOrOut.Out) with
    | none => simp [write_choice_field, h]
    | some t => simp [write_choice_field, h, hu, String.append_assoc]
  · intro hu
    cases h : write_type imports ns field.type (InOrOutOrStable.InOrOut InOrOut.Out) with
    | none => simp [write_choice_field, h]
    | some t => simp [write_choice_field, h, hu, String.append_assoc]

theorem c4_witness :
    write_choice_field 1 [] ⟨[]⟩ ["c"] ["v"] ⟨true, ⟨TypeVariant.bool⟩⟩
        (InOrOutOrStable.InOrOut InOrOut.Out)
      = some ("    V(bool, Vec<COut>, CStable),\n") := by
  rw [(c4_choice_field_flavors 1 [] ⟨[]⟩ ["c"] ["v"] ⟨true, ⟨TypeVariant.bool⟩⟩).2.1 rfl]
  rfl

theorem choice_field_out_nonrestricted (indentation : Nat)
    (imports : List (Identifier × Namespace)) (ns : Namespace)
    (choice_name name : Identifier) (field : Field) (hu : field.unstable = false) :
    write_choice_field indentation imports ns choice_name name field
        (InOrOutOrStable.InOrOut InOrOut.Out)
      = stable_variant_text indentation imports ns (name, field) := by
  cases h : write_type imports ns field.type (InOrOutOrStable.InOrOut InOrOut.Out) with
  | none => simp [write_choice_field, stable_variant_text, h]
  | some t => simp [write_choice_field, stable_variant_text, h, hu, String.append_assoc]

/-- C2: for every choice, the emitted `Stable` flavor lists exactly the
non-restricted variants of the user's variant set, each carrying a single
payload at the payload type's `Out` flavor. -/
theorem c2_stable_variants (indentation : Nat) (imports : List (Identifier × Namespace))
    (ns : Namespace) (choice_name : Identifier) (fields : List (Identifier × Field)) :
    write_choice_fields indentation imports ns choice_name fields InOrOutOrStable.Stable
      = stable_variant_texts indentation imports ns
          (fields.filter fun p => !p.2.unstable) := by
  induction fields with
  | nil => rfl
  | cons p rest ih =>
    obtain ⟨n, f⟩ := p
    by_cases hu : f.unstable = true
    · simp [write_choice_fields, hu, ih]
    · rw [Bool.not_eq_true] at hu
      simp [write_choice_fields, stable_variant_texts, hu, ih,
        choice_field_out_nonrestricted indentation imports ns choice_name n f hu]

/-- C5: for every declaration, the emitter produces exactly two type
definitions for a struct, in the order `In` then `Out`, and exactly three
for a choice, in the order `Stable`, `In` then `Out`, separated by blank
lines. -/
theorem c5_flavor_parts (indentation : Nat) (imports : List (Identifier × Namespace))
    (ns : Namespace) (name : Identifier) (declaration : Declaration) :
    (write_declaration indentation imports ns name declaration
      = (declaration_flavor_parts indentation imports ns name declaration).map fun parts =>
          String.intercalate ("\n") parts)
    ∧ (∀ parts, declaration_flavor_parts indentation imports ns name declaration = some parts →
        parts.length = (match declaration.variant with
                        | DeclarationVariant.struct _ => 2
                        | DeclarationVariant.choice _ => 3)) := by
  constructor
  · cases hv : declaration.variant with
    | struct fields =>
      cases h1 : write_struct indentation imports ns name fields InOrOut.In with
      | none => simp [write_declaration, declaration_flavor_parts, hv, h1]
      | some a =>
        cases h2 : write_struct indentation imports ns name fields InOrOut.Out with
        | none => simp [write_declaration, declaration_flavor_parts, hv, h1, h2]
        | some b =>
          simp [write_declaration, declaration_flavor_parts, hv, h1, h2,
            String.intercalate, String.intercalate.go]
    | choice fields =>
      cases h1 : write_choice indentation imports ns name fields InOrOutOrStable.Stable with
      | none => simp [write_declaration, declaration_flavor_parts, hv, h1]
      | some a =>
        cases h2 : write_choice indentation imports ns name fields
            (InOrOutOrStable.InOrOut InOrOut.In) with
        | none => simp [write_declaration, declaration_flavor_parts, hv, h1, h2]
        | some b =>
          cases h3 : write_choice indentation imports ns name fields
              (InOrOutOrStable.InOrOut InOrOut.Out) with
          | none => simp [write_declaration, declaration_flavor_parts, hv, h1, h2, h3]
          | some c =>
            simp [write_declaration, declaration_flavor_parts, hv, h1, h2, h3,
              String.intercalate, String.intercalate.go]
  · intro parts hp
    obtain ⟨v⟩ := declaration
    cases v with
    | struct fields =>
      simp only [declaration_flavor_parts] at hp
      cases h1 : write_struct indentation imports ns name fields InOrOut.In with
      | none => rw [h1] at hp; exact absurd hp (by simp)
      | some a =>
        cases h2 : write_struct indentation imports ns name fields InOrOut.Out with
        | none => rw [h1, h2] at hp; exact absurd hp (by simp)
        | some b =>
          rw [h1, h2] at hp
          simp at hp
          subst hp
          rfl
    | choice fields =>
      simp only [declaration_flavor_parts] at hp
      cases h1 : write_choice indentation imports ns name fields InOrOutOrStable.Stable with
      | none => rw [h1] at hp; exact absurd hp (by simp)
      | some a =>
        cases h2 : write_choice indentation imports ns name fields
            (InOrOutOrStable.InOrOut InOrOut.In) with
        | none => rw [h1, h2] at hp; exact absurd hp (by simp)
        | some b =>
          cases h3 : write_choice indentation imports ns name fields
              (InOrOutOrStable.InOrOut InOrOut.Out) with
          | none => rw [h1, h2, h3] at hp; exact absurd hp (by simp)
          | some c =>
            rw [h1, h2, h3] at hp
            simp at hp
            subst hp
            rfl

theorem c5_witness :
    (["#[derive(Clone, Debug)]\npub struct SIn \x7b\n\x7d\n",
      "#[derive(Clone, Debug)]\npub struct SOut \x7b\n\x7d\n"] : List String).length = 2 :=
  (c5_flavor_parts 0 [] ⟨[]⟩ ["s"] ⟨DeclarationVariant.struct []⟩).2 _ (by rfl)

theorem common_prefix_len_le_right (a b : List Identifier) :
    common_prefix_len a b ≤ b.length := by
  induction a generalizing b with
  | nil => cases b <;> simp [common_prefix_len]
  | cons x xs ih =>
    cases b with
    | nil => simp [common_prefix_len]
    | cons y ys =>
      by_cases h : x = y
      · simpa [common_prefix_len, h] using Nat.succ_le_succ (ih ys)
      · simp [common_prefix_len, h]

theorem common_prefix_agrees (a b : List Identifier) :
    a.take (common_prefix_len a b) = b.take (common_prefix_len a b) := by
  induction a generalizing b with
  | nil => cases b <;> simp [common_prefix_len]
  | cons x xs ih =>
    cases b with
    | nil => simp [common_prefix_len]
    | cons y ys =>
      by_cases h : x = y
      · subst h
        simp [common_prefix_len, ih ys]
      · simp [common_prefix_len, h]

/-- C7: a cross-module type reference renders as exactly
`|current| - |longest common prefix|` ancestor markers, then the remaining
target components snake-cased with module separators, then the Pascal-cased
type name with the flavor suffix; and ascending that many levels from the
current namespace and descending the remaining components lands exactly on
the target namespace. -/
theorem c7_relativize_path (current target : Namespace) (q tname : Identifier)
    (flavor : InOrOutOrStable) :
    (write_type [(q, target)] current ⟨TypeVariant.custom (some q) tname⟩ flavor
      = some (String.join (List.replicate (relativize_namespace target current).2 "super::")
          ++ String.join ((relativize_namespace target current).1.components.map fun component =>
               write_identifier component CaseConvention.Snake ++ "::")
          ++ write_identifier tname CaseConvention.Pascal
          ++ flavor_suffix flavor))
    ∧ (relativize_namespace target current).2
        = current.components.length - common_prefix_len target.components current.components
    ∧ current.components.take
          (current.components.length - (relativize_namespace target current).2)
        ++ (relativize_namespace target current).1.components = target.components := by
  refine ⟨?_, rfl, ?_⟩
  · simp [write_type, map_lookup]
  · have hk := common_prefix_len_le_right target.components current.components
    simp only [relativize_namespace]
    rw [Nat.sub_sub_self hk]
    rw [show current.components.take (common_prefix_len target.components current.components)
        = target.components.take (common_prefix_len target.components current.components) from
        (common_prefix_agrees target.components current.components).symm]
    exact List.take_append_drop _ _

/-- C10: `check_match` returns `Ok(())` exactly when serialization succeeds
with a buffer whose length equals `size`, deserialization of that buffer
succeeds, and the debug rendering of the result equals that of the converted
input; a length or rendering mismatch yields the `Mismatch!` error, and the
buffer handed to the length check and the deserializer holds exactly the
serialized bytes. -/
theorem c10_check_match (T U : Type) (env : RoundTripEnv T U) (x : T) :
    (check_match env x = Except.ok () ↔
      ∃ bytes y, env.serialize x = Except.ok bytes ∧ bytes.length = env.size x ∧
        env.deserialize bytes = Except.ok y ∧ env.debug y = env.debug (env.conv x))
    ∧ (∀ bytes, env.serialize x = Except.ok bytes → ¬ bytes.length = env.size x →
        check_match env x = Except.error ("Mismatch!"))
    ∧ (∀ bytes y, env.serialize x = Except.ok bytes → bytes.length = env.size x →
        env.deserialize bytes = Except.ok y → ¬ env.debug y = env.debug (env.conv x) →
        check_match env x = Except.error ("Mismatch!")) := by
  refine ⟨?_, ?_, ?_⟩
  · constructor
    · intro h
      cases hs : env.serialize x with
      | error e => simp [check_match, hs] at h
      | ok bytes =>
        by_cases hlen : bytes.length = env.size x
        · cases hd : env.deserialize bytes with
          | error e => simp [check_match, hs, hlen, hd] at h
          | ok y =>
            by_cases hdbg : env.debug y = env.debug (env.conv x)
            · exact ⟨bytes, y, rfl, hlen, hd, hdbg⟩
            · simp [check_match, hs, hlen, hd, hdbg] at h
        · simp [check_match, hs, hlen] at h
    · rintro ⟨bytes, y, hs, hlen, hd, hdbg⟩
      simp [check_match, hs, hlen, hd, hdbg]
  · intro bytes hs hlen
    simp [check_match, hs, hlen]
  · intro bytes y hs hlen hd hdbg
    simp [check_match, hs, hlen, hd, hdbg]

theorem c10_witness : check_match bool_round_trip_env true = Except.ok () :=
  (c10_check_match Bool Bool bool_round_trip_env true).1.mpr
    ⟨[1], true, rfl, rfl, by rfl, rfl⟩

theorem idLt_trans {a b c : Identifier} (h1 : idLt a b) (h2 : idLt b c) : idLt a c :=
  trans_of (List.Lex strLt) h1 h2

theorem idLt_trichotomy (a b : Identifier) : idLt a b ∨ a = b ∨ idLt b a :=
  trichotomous_of (List.Lex strLt) a b

theorem mem_map_insert {V : Type} {p : Identifier × V} {k : Identifier} {v : V}
    {l : List (Identifier × V)} (h : p ∈ map_insert k v l) : p = (k, v) ∨ p ∈ l := by
  induction l with
  | nil => simpa [map_insert] using h
  | cons q rest ih =>
    obtain ⟨k', v'⟩ := q
    by_cases h1 : idLt k k'
    · simp only [map_insert, if_pos h1, List.mem_cons] at h
      rcases h with h | h | h
      · exact Or.inl h
      · exact Or.inr (by simp [h])
      · exact Or.inr (by simp [h])
    · by_cases h2 : k = k'
      · simp only [map_insert, if_neg h1, if_pos h2, List.mem_cons] at h
        rcases h with h | h
        · exact Or.inl h
        · exact Or.inr (by simp [h])
      · simp only [map_insert, if_neg h1, if_neg h2, List.mem_cons] at h
        rcases h with h | h
        · exact Or.inr (by simp [h])
        · rcases ih h with h' | h'
          · exact Or.inl h'
          · exact Or.inr (by simp [h'])

theorem mem_map_set {V : Type} {p : Identifier × V} {k : Identifier} {v : V}
    {l : List (Identifier × V)} (h : p ∈ map_set k v l) :
    p ∈ l ∨ (p = (k, v) ∧ ∃ w, (k, w) ∈ l) := by
  induction l with
  | nil => simp [map_set] at h
  | cons q rest ih =>
    obtain ⟨k', v'⟩ := q
    by_cases h2 : k = k'
    · subst h2
      rw [map_set, if_pos rfl, List.mem_cons] at h
      rcases h with h | h
      · exact Or.inr ⟨h, v', List.mem_cons_self _ _⟩
      · exact Or.inl (List.mem_cons_of_mem _ h)
    · rw [map_set, if_neg h2, List.mem_cons] at h
      rcases h with h | h
      · exact Or.inl (by simp [h])
      · rcases ih h with h' | ⟨h', w, hw⟩
        · exact Or.inl (List.mem_cons_of_mem _ h')
        · exact Or.inr ⟨h', w, List.mem_cons_of_mem _ hw⟩

theorem map_lookup_mem {V : Type} {k : Identifier} {v : V} {l : List (Identifier × V)}
    (h : map_lookup k l = some v) : (k, v) ∈ l := by
  induction l with
  | nil => simp [map_lookup] at h
  | cons q rest ih =>
    obtain ⟨k', v'⟩ := q
    simp only [map_lookup] at h
    split at h
    · next heq =>
      subst heq
      injection h with h
      subst h
      exact List.mem_cons_self _ _
    · next hne => exact List.mem_cons_of_mem _ (ih h)

theorem keys_sorted_map_insert {V : Type} (k : Identifier) (v : V)
    {l : List (Identifier × V)} (h : keys_sorted l = true) :
    keys_sorted (map_insert k v l) = true := by
  induction l with
  | nil => simp [map_insert, keys_sorted]
  | cons q rest ih =>
    obtain ⟨k', v'⟩ := q
    simp only [keys_sorted, Bool.and_eq_true, List.all_eq_true, decide_eq_true_eq] at h
    obtain ⟨hall, hrest⟩ := h
    by_cases h1 : idLt k k'
    · simp only [map_insert, if_pos h1, keys_sorted, Bool.and_eq_true, List.all_eq_true,
        decide_eq_true_eq, List.mem_cons]
      refine ⟨?_, ?_, hrest⟩
      · rintro q (rfl | hq)
        · exact h1
        · exact idLt_trans h1 (hall q hq)
      · exact hall
    · by_cases h2 : k = k'
      · subst h2
        simp only [map_insert, if_neg h1, if_pos rfl, keys_sorted, Bool.and_eq_true,
          List.all_eq_true, decide_eq_true_eq]
        exact ⟨hall, hrest⟩
      · have h3 : idLt k' k := by
          rcases idLt_trichotomy k k' with h' | h' | h'
          · exact absurd h' h1
          · exact absurd h' h2
          · exact h'
        simp only [map_insert, if_neg h1, if_neg h2, keys_sorted, Bool.and_eq_true,
          List.all_eq_true, decide_eq_true_eq]
        refine ⟨?_, ih hrest⟩
        intro q hq
        rcases mem_map_insert hq with rfl | hq'
        · exact h3
        · exact hall q hq'

theorem keys_sorted_map_set {V : Type} (k : Identifier) (v : V)
    {l : List (Identifier × V)} (h : keys_sorted l = true) :
    keys_sorted (map_set k v l) = true := by
  induction l with
  | nil => simpa [map_set] using h
  | cons q rest ih =>
    obtain ⟨k', v'⟩ := q
    simp only [keys_sorted, Bool.and_eq_true, List.all_eq_true, decide_eq_true_eq] at h
    obtain ⟨hall, hrest⟩ := h
    by_cases h2 : k = k'
    · subst h2
      simp only [map_set, if_pos rfl, keys_sorted, Bool.and_eq_true, List.all_eq_true,
        decide_eq_true_eq]
      exact ⟨hall, hrest⟩
    · simp only [map_set, if_neg h2, keys_sorted, Bool.and_eq_true, List.all_eq_true,
        decide_eq_true_eq]
      refine ⟨?_, ih hrest⟩
      intro q hq
      rcases mem_map_set hq with hq' | ⟨rfl, w, hw⟩
      · exact hall q hq'
      · exact hall (k, w) hw

theorem insert_schema_ordered (components : List Identifier) {m : Module} {schema : Schema}
    (hm : ModuleOrdered m) (hs : schema_sorted schema = true) :
    ModuleOrdered (insert_schema m components schema) := by
  induction components generalizing m with
  | nil =>
    rcases hm with @⟨children, s, hsort, hss, hchildren⟩
    exact ModuleOrdered.mk hsort hs hchildren
  | cons head rest ih =>
    rcases hm with @⟨children, s, hsort, hss, hchildren⟩
    cases hlk : map_lookup head children with
    | some child =>
      simp only [insert_schema, hlk]
      refine ModuleOrdered.mk (keys_sorted_map_set _ _ hsort) hss ?_
      intro p hp
      rcases mem_map_set hp with hp' | ⟨rfl, w, hw⟩
      · exact hchildren p hp'
      · exact ih (hchildren (head, child) (map_lookup_mem hlk))
    | none =>
      simp only [insert_schema, hlk]
      refine ModuleOrdered.mk (keys_sorted_map_insert _ _ hsort) hss ?_
      intro p hp
      rcases mem_map_insert hp with rfl | hp'
      · exact ih (ModuleOrdered.mk rfl rfl (by simp))
      · exact hchildren p hp'

/-- C1 (amended): child modules are emitted in ascending lexicographic name
order at every level of the tree `generate` builds, and within each schema
the declarations, and the fields inside each emitted type, follow the
ascending lexicographic identifier order of their `BTreeMap`s — not their
source order, which the maps do not retain. -/
theorem c1_amended_emission_order (schemas : List (Namespace × Schema))
    (h : ∀ p ∈ schemas, schema_sorted p.2 = true) :
    ModuleOrdered (build_tree schemas) := by
  have H : ∀ (ss : List (Namespace × Schema)), (∀ p ∈ ss, schema_sorted p.2 = true) →
      ∀ acc, ModuleOrdered acc →
      ModuleOrdered (ss.foldl (fun t p => insert_schema t p.1.components p.2) acc) := by
    intro ss
    induction ss with
    | nil =>
      intro _ acc hacc
      simpa using hacc
    | cons q rest ih =>
      intro hss acc hacc
      simp only [List.foldl_cons]
      exact ih (fun p hp => hss p (List.mem_cons_of_mem _ hp)) _
        (insert_schema_ordered _ hacc (hss q (List.mem_cons_self _ _)))
  exact H schemas h _ (ModuleOrdered.mk rfl rfl (by simp))

theorem c1_witness :
    ModuleOrdered (build_tree [(⟨[["a"]]⟩, ⟨[], [(["s"], ⟨DeclarationVariant.struct []⟩)]⟩)]) :=
  c1_amended_emission_order _ (by decide)

/-- C1 (counterexample): a schema whose source order declares `zebra` before
`apple` is emitted with `apple` first, because the emitter walks the
declaration `BTreeMap` in key order; `emitted_decl_order` is the order the
declaration loop of `write_schema` follows, and `declarations_to_map` keys
the source-ordered list into the map the emitter consumes. -/
theorem c1_counterexample :
    emitted_decl_order ⟨[], declarations_to_map
        [(["zebra"], ⟨DeclarationVariant.struct []⟩),
         (["apple"], ⟨DeclarationVariant.struct []⟩)]⟩
      ≠ [["zebra"], ["apple"]] := by decide

theorem resolve_imports_isSome {l : List (Identifier × Import)}
    (h : (l.all fun p => p.2.resolved_namespace.isSome) = true) :
    (resolve_imports l).isSome := by
  induction l with
  | nil => simp [resolve_imports]
  | cons p rest ih =>
    simp only [List.all_cons, Bool.and_eq_true] at h
    obtain ⟨h1, h2⟩ := h
    obtain ⟨ns, hns⟩ := Option.isSome_iff_exists.mp h1
    obtain ⟨rest', hrest⟩ := Option.isSome_iff_exists.mp (ih h2)
    simp [resolve_imports, hns, hrest]

theorem resolve_imports_lookup {l : List (Identifier × Import)}
    {l' : List (Identifier × Namespace)} (h : resolve_imports l = some l')
    (q : Identifier) : (map_lookup q l').isSome = (map_lookup q l).isSome := by
  induction l generalizing l' with
  | nil =>
    simp only [resolve_imports, Option.some.injEq] at h
    subst h
    rfl
  | cons p rest ih =>
    obtain ⟨name, imp⟩ := p
    cases hns : imp.resolved_namespace with
    | none => simp [resolve_imports, hns] at h
    | some ns0 =>
      cases hr : resolve_imports rest with
      | none => simp [resolve_imports, hns, hr] at h
      | some rest' =>
        rw [resolve_imports, hns, hr] at h
        have h2 : ((name, ns0) :: rest' : List (Identifier × Namespace)) = l' :=
          Option.some.inj h
        subst h2
        by_cases hq : q = name
        · simp [map_lookup, hq]
        · simp [map_lookup, hq, ih hr]

theorem write_type_isSome (imports' : List (Identifier × Namespace)) (ns : Namespace)
    (t : Type') (flavor : InOrOutOrStable)
    (h : (match t.variant with
          | TypeVariant.custom (some q) _ => (map_lookup q imports').isSome
          | _ => true) = true) :
    (write_type imports' ns t flavor).isSome := by
  cases hv : t.variant with
  | bool => simp [write_type, hv]
  | custom qual name =>
    cases qual with
    | none => simp [write_type, hv]
    | some q =>
      rw [hv] at h
      simp only [] at h
      obtain ⟨nsq, hq⟩ := Option.isSome_iff_exists.mp h
      simp [write_type, hv, hq]

theorem write_struct_fields_isSome (indentation : Nat)
    (imports' : List (Identifier × Namespace)) (ns : Namespace)
    {fields : List (Identifier × Field)} (in_or_out : InOrOut)
    (h : ∀ f ∈ fields, (match f.2.type.variant with
          | TypeVariant.custom (some q) _ => (map_lookup q imports').isSome
          | _ => true) = true) :
    (write_struct_fields indentation imports' ns fields in_or_out).isSome := by
  induction fields with
  | nil => simp [write_struct_fields]
  | cons p rest ih =>
    have h1 := write_type_isSome imports' ns p.2.type (InOrOutOrStable.InOrOut in_or_out)
      (h p (List.mem_cons_self _ _))
    obtain ⟨t, ht⟩ := Option.isSome_iff_exists.mp h1
    obtain ⟨srest, hrest⟩ := Option.isSome_iff_exists.mp
      (ih fun f hf => h f (List.mem_cons_of_mem _ hf))
    simp [write_struct_fields, write_struct_field, ht, hrest]

theorem write_struct_isSome (indentation : Nat) (imports' : List (Identifier × Namespace))
    (ns : Namespace) (name : Identifier) {fields : List (Identifier × Field)}
    (in_or_out : InOrOut)
    (h : ∀ f ∈ fields, (match f.2.type.variant with
          | TypeVariant.custom (some q) _ => (map_lookup q imports').isSome
          | _ => true) = true) :
    (write_struct indentation imports' ns name fields in_or_out).isSome := by
  obtain ⟨body, hbody⟩ := Option.isSome_iff_exists.mp
    (write_struct_fields_isSome (indentation + 1) imports' ns in_or_out h)
  simp [write_struct, hbody]

theorem write_choice_fields_isSome (indentation : Nat)
    (imports' : List (Identifier × Namespace)) (ns : Namespace) (choice_name : Identifier)
    {fields : List (Identifier × Field)} (flavor : InOrOutOrStable)
    (h : ∀ f ∈ fields, (match f.2.type.variant with
          | TypeVariant.custom (some q) _ => (map_lookup q imports').isSome
          | _ => true) = true) :
    (write_choice_fields indentation imports' ns choice_name fields flavor).isSome := by
  induction fields with
  | nil => simp [write_choice_fields]
  | cons p rest ih =>
    obtain ⟨srest, hrest⟩ := Option.isSome_iff_exists.mp
      (ih fun f hf => h f (List.mem_cons_of_mem _ hf))
    have hW : ∀ pf : InOrOutOrStable, (write_type imports' ns p.2.type pf).isSome := fun pf =>
      write_type_isSome imports' ns p.2.type pf (h p (List.mem_cons_self _ _))
    cases flavor with
    | InOrOut io =>
      obtain ⟨t, ht⟩ := Option.isSome_iff_exists.mp (hW (InOrOutOrStable.InOrOut io))
      simp [write_choice_fields, write_choice_field, ht, hrest]
    | Stable =>
      by_cases hu : p.2.unstable = true
      · simp [write_choice_fields, hu, hrest]
      · obtain ⟨t, ht⟩ := Option.isSome_iff_exists.mp (hW (InOrOutOrStable.InOrOut InOrOut.Out))
        simp [write_choice_fields, hu, write_choice_field, ht, hrest]

theorem write_choice_isSome (indentation : Nat) (imports' : List (Identifier × Namespace))
    (ns : Namespace) (name : Identifier) {fields : List (Identifier × Field)}
    (flavor : InOrOutOrStable)
    (h : ∀ f ∈ fields, (match f.2.type.variant with
          | TypeVariant.custom (some q) _ => (map_lookup q imports').isSome
          | _ => true) = true) :
    (write_choice indentation imports' ns name fields flavor).isSome := by
  obtain ⟨body, hbody⟩ := Option.isSome_iff_exists.mp
    (write_choice_fields_isSome (indentation + 1) imports' ns name flavor h)
  simp [write_choice, hbody]

theorem write_declaration_isSome (indentation : Nat)
    (imports' : List (Identifier × Namespace)) (ns : Namespace) (name : Identifier)
    {declaration : Declaration}
    (h : ∀ f ∈ declaration.fields, (match f.2.type.variant with
          | TypeVariant.custom (some q) _ => (map_lookup q imports').isSome
          | _ => true) = true) :
    (write_declaration indentation imports' ns name declaration).isSome := by
  obtain ⟨v⟩ := declaration
  cases v with
  | struct fields =>
    have hf : ∀ f ∈ fields, (match f.2.type.variant with
        | TypeVariant.custom (some q) _ => (map_lookup q imports').isSome
        | _ => true) = true := h
    obtain ⟨a, ha⟩ := Option.isSome_iff_exists.mp
      (write_struct_isSome indentation imports' ns name InOrOut.In hf)
    obtain ⟨b, hb⟩ := Option.isSome_iff_exists.mp
      (write_struct_isSome indentation imports' ns name InOrOut.Out hf)
    simp [write_declaration, ha, hb]
  | choice fields =>
    have hf : ∀ f ∈ fields, (match f.2.type.variant with
        | TypeVariant.custom (some q) _ => (map_lookup q imports').isSome
        | _ => true) = true := h
    obtain ⟨a, ha⟩ := Option.isSome_iff_exists.mp
      (write_choice_isSome indentation imports' ns name InOrOutOrStable.Stable hf)
    obtain ⟨b, hb⟩ := Option.isSome_iff_exists.mp
      (write_choice_isSome indentation imports' ns name (InOrOutOrStable.InOrOut InOrOut.In) hf)
    obtain ⟨c, hc⟩ := Option.isSome_iff_exists.mp
      (write_choice_isSome indentation imports' ns name (InOrOutOrStable.InOrOut InOrOut.Out) hf)
    simp [write_declaration, ha, hb, hc]

theorem write_declarations_isSome (indentation : Nat)
    (imports' : List (Identifier × Namespace)) (ns : Namespace)
    {declarations : List (Identifier × Declaration)}
    (h : ∀ d ∈ declarations, ∀ f ∈ d.2.fields, (match f.2.type.variant with
          | TypeVariant.custom (some q) _ => (map_lookup q imports').isSome
          | _ => true) = true) :
    (write_declarations indentation imports' ns declarations).isSome := by
  induction declarations with
  | nil => simp [write_declarations]
  | cons p rest ih =>
    obtain ⟨s, hs⟩ := Option.isSome_iff_exists.mp
      (write_declaration_isSome indentation imports' ns p.1
        (h p (List.mem_cons_self _ _)))
    obtain ⟨srest, hrest⟩ := Option.isSome_iff_exists.mp
      (ih fun d hd => h d (List.mem_cons_of_mem _ hd))
    simp [write_declarations, hs, hrest]

theorem write_schema_isSome (indentation : Nat) (ns : Namespace) {schema : Schema}
    (h : schema_closed schema = true) : (write_schema indentation ns schema).isSome := by
  simp only [schema_closed, Bool.and_eq_true] at h
  obtain ⟨h1, h2⟩ := h
  obtain ⟨imports', hi⟩ := Option.isSome_iff_exists.mp (resolve_imports_isSome h1)
  have hb : ∀ d ∈ schema.declarations, ∀ f ∈ d.2.fields, (match f.2.type.variant with
      | TypeVariant.custom (some q) _ => (map_lookup q imports').isSome
      | _ => true) = true := by
    rw [List.all_eq_true] at h2
    intro d hd f hf
    have h3 := h2 d hd
    rw [List.all_eq_true] at h3
    have h4 := h3 f hf
    unfold field_bound at h4
    cases hv : f.2.type.variant with
    | bool => simp
    | custom qual tname =>
      cases qual with
      | none => simp
      | some q =>
        rw [hv] at h4
        simp only [] at h4 ⊢
        rw [resolve_imports_lookup hi q]
        exact h4
  obtain ⟨body, hbody⟩ := Option.isSome_iff_exists.mp
    (write_declarations_isSome indentation imports' ns hb)
  simp [write_schema, hi, hbody]

mutual

theorem write_module_isSome (indentation : Nat) (ns : Namespace) (name : Identifier)
    (m : Module) (hm : ModuleClosed m) : (write_module indentation ns name m).isSome := by
  rcases hm with @⟨children, schema, hs, hc⟩
  obtain ⟨contents, hcc⟩ := Option.isSome_iff_exists.mp
    (write_module_contents_isSome (indentation + 1) ⟨ns.components ++ [name]⟩
      children schema hc hs)
  simp [write_module, hcc]
termination_by sizeOf m
decreasing_by
  simp_wf
  cases schema
  simp
  omega

theorem write_module_children_isSome (indentation : Nat) (ns : Namespace)
    (children : List (Identifier × Module)) (schema_empty : Bool)
    (hc : ∀ p ∈ children, ModuleClosed p.2) :
    (write_module_children indentation ns children schema_empty).isSome := by
  match children with
  | [] => simp [write_module_children]
  | (child_name, child) :: rest =>
    obtain ⟨s, hs⟩ := Option.isSome_iff_exists.mp
      (write_module_isSome indentation ns child_name child
        (hc (child_name, child) (List.mem_cons_self _ _)))
    obtain ⟨srest, hrest⟩ := Option.isSome_iff_exists.mp
      (write_module_children_isSome indentation ns rest schema_empty
        fun p hp => hc p (List.mem_cons_of_mem _ hp))
    simp [write_module_children, hs, hrest]
termination_by sizeOf children

theorem write_module_contents_isSome (indentation : Nat) (ns : Namespace)
    (children : List (Identifier × Module)) (schema : Schema)
    (hc : ∀ p ∈ children, ModuleClosed p.2) (hs : schema_closed schema = true) :
    (write_module_contents indentation ns children schema).isSome := by
  obtain ⟨cs, hcs⟩ := Option.isSome_iff_exists.mp
    (write_module_children_isSome indentation ns children schema.declarations.isEmpty hc)
  obtain ⟨ss, hss⟩ := Option.isSome_iff_exists.mp (write_schema_isSome indentation ns hs)
  simp [write_module_contents, hcs, hss]
termination_by sizeOf children + 1

end

theorem insert_schema_closed (components : List Identifier) {m : Module} {schema : Schema}
    (hm : ModuleClosed m) (hs : schema_closed schema = true) :
    ModuleClosed (insert_schema m components schema) := by
  induction components generalizing m with
  | nil =>
    rcases hm with @⟨children, s, hss, hchildren⟩
    exact ModuleClosed.mk hs hchildren
  | cons head rest ih =>
    rcases hm with @⟨children, s, hss, hchildren⟩
    cases hlk : map_lookup head children with
    | some child =>
      simp only [insert_schema, hlk]
      refine ModuleClosed.mk hss ?_
      intro p hp
      rcases mem_map_set hp with hp' | ⟨rfl, w, hw⟩
      · exact hchildren p hp'
      · exact ih (hchildren (head, child) (map_lookup_mem hlk))
    | none =>
      simp only [insert_schema, hlk]
      refine ModuleClosed.mk hss ?_
      intro p hp
      rcases mem_map_insert hp with rfl | hp'
      · exact ih (ModuleClosed.mk rfl (by simp))
      · exact hchildren p hp'

/-- C8: for every schema set satisfying the validation facts — every import
carries a resolved namespace and every qualifier used by a type reference is
a key of its schema's import map — `generate` succeeds: no unwrap or
indexing panic occurs, and (writes going to an internal `String` buffer,
whose writer cannot fail) a string is returned. -/
theorem c8_generate_total (schemas : List (Namespace × Schema))
    (h : ∀ p ∈ schemas, schema_closed p.2 = true) : (generate schemas).isSome := by
  have htree : ModuleClosed (build_tree schemas) := by
    have H : ∀ (ss : List (Namespace × Schema)), (∀ p ∈ ss, schema_closed p.2 = true) →
        ∀ acc, ModuleClosed acc →
        ModuleClosed (ss.foldl (fun t p => insert_schema t p.1.components p.2) acc) := by
      intro ss
      induction ss with
      | nil =>
        intro _ acc hacc
        simpa using hacc
      | cons q rest ih =>
        intro hss acc hacc
        simp only [List.foldl_cons]
        exact ih (fun p hp => hss p (List.mem_cons_of_mem _ hp)) _
          (insert_schema_closed _ hacc (hss q (List.mem_cons_self _ _)))
    exact H schemas h _ (ModuleClosed.mk rfl (by simp))
  cases hb : build_tree schemas with
  | mk children schema =>
    rw [hb] at htree
    rcases htree with @⟨children, schema, hs, hc⟩
    unfold generate
    rw [hb]
    obtain ⟨contents, hcc⟩ := Option.isSome_iff_exists.mp
      (write_module_contents_isSome 0 ⟨[]⟩ children schema hc hs)
    split
    rename_i x children2 schema2 heq
    injection heq with h1 h2
    subst h1
    subst h2
    split <;> simp [hcc]

theorem c8_witness :
    (generate [(⟨[["a"]]⟩, ⟨[], [(["s"], ⟨DeclarationVariant.struct []⟩)]⟩)]).isSome :=
  c8_generate_total _ (by decide)

end Typical
